import Mathlib

/-!
Shallow embedding of the dotnet-lens library (src/lib.rs, src/parser.rs,
src/search.rs) and proofs of the specification claims.

Rust paths are modelled at the byte level (Unix `OsStr` bytes as `List Nat`),
following the algorithms of `std::path`: `file_stem` / `extension` split the
file name at the last `.`, treating a leading dot as part of the stem, and
`..` specially.  XML attribute and text values delivered by the `spex` reader
are Rust `&str` values, modelled as Lean `String`s.
-/

/-- Index of the last occurrence of `a` in `xs`, if any. -/
def lastIdxOf {α : Type} [BEq α] (a : α) (xs : List α) : Option Nat :=
  (xs.enum.filterMap (fun p => if p.2 == a then some p.1 else none)).getLast?

/-- Rust `std::path::rsplit_file_at_dot`: split a file name at the last
occurrence of `dot` into (stem-part, extension-part).  The literal name
`[dot, dot]` (Rust `".."`) and a name whose only `dot` is the leading one
have no extension part. -/
def rsplitFileAtDot {α : Type} [BEq α] (dot : α) (name : List α) :
    Option (List α) × Option (List α) :=
  if name == [dot, dot] then (some name, none)
  else
    match lastIdxOf dot name with
    | none => (none, some name)
    | some i =>
      if i == 0 then (some name, none)
      else (some (name.take i), some (name.drop (i + 1)))

/-- Rust `Path::file_stem` applied to a file name: the part before the last
dot, or the whole name when there is no dot (or only a leading one). -/
def fileStemOf {α : Type} [BEq α] (dot : α) (name : List α) : Option (List α) :=
  (rsplitFileAtDot dot name).1 <|> (rsplitFileAtDot dot name).2

/-- Rust `Path::extension` applied to a file name: the part after the last
dot, provided a nonempty stem part exists before it. -/
def extensionOf {α : Type} [BEq α] (dot : α) (name : List α) : Option (List α) :=
  match rsplitFileAtDot dot name with
  | (some _, after) => after
  | (none, _) => none

/-- Is `b` a UTF-8 continuation byte (`0x80..=0xBF`)? -/
def isUtf8Cont (b : Nat) : Bool := 0x80 ≤ b && b ≤ 0xBF

/-- Strict UTF-8 validation of a byte sequence, as performed by Rust
`str::from_utf8` (used by `OsStr::to_str`): rejects overlong encodings,
surrogates and out-of-range scalar values. -/
def utf8Valid : List Nat → Bool
  | [] => true
  | b :: rest =>
    if b ≤ 0x7F then utf8Valid rest
    else if 0xC2 ≤ b && b ≤ 0xDF then
      match rest with
      | c1 :: r => isUtf8Cont c1 && utf8Valid r
      | [] => false
    else if b == 0xE0 then
      match rest with
      | c1 :: c2 :: r => (0xA0 ≤ c1 && c1 ≤ 0xBF) && isUtf8Cont c2 && utf8Valid r
      | _ => false
    else if (0xE1 ≤ b && b ≤ 0xEC) || b == 0xEE || b == 0xEF then
      match rest with
      | c1 :: c2 :: r => isUtf8Cont c1 && isUtf8Cont c2 && utf8Valid r
      | _ => false
    else if b == 0xED then
      match rest with
      | c1 :: c2 :: r => (0x80 ≤ c1 && c1 ≤ 0x9F) && isUtf8Cont c2 && utf8Valid r
      | _ => false
    else if b == 0xF0 then
      match rest with
      | c1 :: c2 :: c3 :: r =>
        (0x90 ≤ c1 && c1 ≤ 0xBF) && isUtf8Cont c2 && isUtf8Cont c3 && utf8Valid r
      | _ => false
    else if 0xF1 ≤ b && b ≤ 0xF3 then
      match rest with
      | c1 :: c2 :: c3 :: r =>
        isUtf8Cont c1 && isUtf8Cont c2 && isUtf8Cont c3 && utf8Valid r
      | _ => false
    else if b == 0xF4 then
      match rest with
      | c1 :: c2 :: c3 :: r =>
        (0x80 ≤ c1 && c1 ≤ 0x8F) && isUtf8Cont c2 && isUtf8Cont c3 && utf8Valid r
      | _ => false
    else false

/-- UTF-8 bytes of an ASCII string literal (all our constants are ASCII). -/
def asciiBytes (s : String) : List Nat := s.data.map Char.toNat

/-- What `parse` observes of the path argument: whether the path denotes a
directory (`Path::is_dir`, a filesystem query) and the bytes of its final
normal component (`Path::file_name`), `none` when the path has no file name
component. -/
structure OsPath where
  isDir : Bool
  fileName : Option (List Nat)
deriving DecidableEq, Repr

/-- Rust `Path::extension` on the modelled path. -/
def OsPath.extension (p : OsPath) : Option (List Nat) :=
  p.fileName.bind (extensionOf 46)

/-- Rust `Path::file_stem` on the modelled path. -/
def OsPath.fileStem (p : OsPath) : Option (List Nat) :=
  p.fileName.bind (fileStemOf 46)

/-- src/lib.rs `ProjectLanguage`: language of a .NET project. -/
inductive ProjectLanguage where
  | CSharp
  | FSharp
  | VB
deriving DecidableEq, Repr

/-- src/lib.rs `ProjectLanguage::from_extension`: match on the extension
bytes (`extension.as_bytes()`). -/
def ProjectLanguage.from_extension (extension : List Nat) : Option ProjectLanguage :=
  if extension == asciiBytes "csproj" then some .CSharp
  else if extension == asciiBytes "fsproj" then some .FSharp
  else if extension == asciiBytes "vbproj" then some .VB
  else none

/-- src/lib.rs `ProjectReference`: name + path of a referenced project.
Both fields are Rust `String`s built from XML attribute text. -/
structure ProjectReference where
  name : String
  path : String
deriving DecidableEq, Repr

/-- src/lib.rs `PackageReference`: name + version of a referenced package. -/
structure PackageReference where
  name : String
  version : String
deriving DecidableEq, Repr

/-- src/lib.rs `Project`.  The `name` field holds the UTF-8 bytes of the
project name (the validated file stem of the project path). -/
structure Project where
  name : List Nat
  language : ProjectLanguage
  path : OsPath
  target_framework : Option String
  project_references : List ProjectReference
  package_references : List PackageReference
deriving DecidableEq, Repr

/-- src/lib.rs `Project::get_project_name` applied to the main project path:
`path.file_stem().and_then(|name| name.to_str()).map(to_string)`.  The
`to_str` step succeeds exactly when the stem bytes are valid UTF-8; the
resulting `String` carries the very same bytes, so we return them. -/
def Project.get_project_name (p : OsPath) : Option (List Nat) :=
  (p.fileStem).bind (fun st => if utf8Valid st then some st else none)

/-- Split a character list on a separator character (Rust path component
splitting uses this with `/`). -/
def splitOnChar (sep : Char) (cs : List Char) : List (List Char) :=
  cs.foldr
    (fun c acc =>
      match acc with
      | seg :: rest => if c == sep then [] :: seg :: rest else (c :: seg) :: rest
      | [] => [[c]])
    [[]]

/-- Rust `Path::file_name` on a path built from a string
(`PathBuf::from(s)`): the last component of the path, skipping empty and
`.` segments; `none` when the last component is `..` or the path has no
normal component. -/
def pathFileName (cs : List Char) : Option (List Char) :=
  let comps := (splitOnChar (Char.ofNat 47) cs).filter
    (fun seg => !(seg.isEmpty || seg == [Char.ofNat 46]))
  match comps.getLast? with
  | none => none
  | some c => if c == [Char.ofNat 46, Char.ofNat 46] then none else some c

/-- src/lib.rs `Project::get_project_name` applied to a `PathBuf` built from
a reference `Include` string: file stem of its last component.  Here the
`to_str` step always succeeds, because the stem is a contiguous slice of a
valid UTF-8 string cut at the ASCII delimiters `/` and `.`, so it is modelled
as the identity. -/
def get_project_name_str (s : String) : Option String :=
  ((pathFileName s.data).bind (fileStemOf (Char.ofNat 46))).map
    (fun cs => String.mk cs)

/-- Rust `str::replace("\\", "/")` on an `Include` attribute value. -/
def replace_backslashes (s : String) : String :=
  String.mk (s.data.map (fun c => if c == Char.ofNat 92 then Char.ofNat 47 else c))

/-- An XML element as exposed by the `spex` element tree: local name,
attributes, optional text content, child elements in document order. -/
inductive Element where
  | mk (name : String) (attributes : List (String × String))
      (textContent : Option String) (children : List Element)

/-- Local name of the element (`spex` `name().local_part()`). -/
def Element.name : Element → String
  | .mk n _ _ _ => n

/-- Attribute list of the element. -/
def Element.attributes : Element → List (String × String)
  | .mk _ a _ _ => a

/-- Text content of the element, if any. -/
def Element.textContent : Element → Option String
  | .mk _ _ t _ => t

/-- Child elements in document order (`spex` `elements()`). -/
def Element.children : Element → List Element
  | .mk _ _ _ c => c

/-- spex `att_req` / `att_opt`: look up an attribute value by name. -/
def att_opt (e : Element) (attrName : String) : Option String :=
  (e.attributes.find? (fun p => p.1 == attrName)).map (fun p => p.2)

/-- spex `element.opt(name).text()`: text content of the first child element
with the given name, `none` when the child is absent or has no text.  The
optional-text lookup of the XML layer does not fail on a parsed tree. -/
def opt_text (e : Element) (childName : String) : Option String :=
  (e.children.find? (fun c => c.name == childName)).bind Element.textContent

/-- Outcome of `XmlReader::parse_auto(reader)`: either the reader/tokenizer
failed with an `std::io::Error` (malformed XML, truncated stream), or it
produced a document with the given root element.  That the XML layer's
failure surfaces as an I/O error is pinned down by the repository's
`invalid_xml` test. -/
inductive XmlReadResult where
  | failed
  | document (root : Element)

/-- src/parser.rs `ParseError`. -/
inductive ParseError where
  | DeserializationError
  | IoError
  | PathIsNotAFile
  | FileIsNotAProject
  | FileDoesNotHaveAName
deriving DecidableEq, Repr

deriving instance DecidableEq for Except

/-- Body of the loop in src/parser.rs `handle_item_group`: walk the children
of an `ItemGroup` element, appending project and package references. -/
def handle_items (proj : Project) : List Element → Except ParseError Project
  | [] => .ok proj
  | item :: rest =>
    if item.name == "ProjectReference" then
      match att_opt item "Include" with
      | none => .error .DeserializationError
      | some inc =>
        let path := replace_backslashes inc
        match get_project_name_str path with
        | none => .error .FileDoesNotHaveAName
        | some name =>
          handle_items
            { proj with
                project_references := proj.project_references ++ [⟨name, path⟩] }
            rest
    else if item.name == "PackageReference" then
      match att_opt item "Include" with
      | none => .error .DeserializationError
      | some name =>
        match att_opt item "Version" with
        | none => .error .DeserializationError
        | some version =>
          handle_items
            { proj with
                package_references := proj.package_references ++ [⟨name, version⟩] }
            rest
    else handle_items proj rest

/-- src/parser.rs `handle_item_group`. -/
def handle_item_group (proj : Project) (element : Element) : Except ParseError Project :=
  handle_items proj element.children

/-- src/parser.rs `handle_property_group`: record the `TargetFramework` text
unless a target framework is already set. -/
def handle_property_group (proj : Project) (element : Element) : Project :=
  if proj.target_framework.isSome then proj
  else { proj with target_framework := opt_text element "TargetFramework" }

/-- src/parser.rs `fill_project_based_on_xml`: walk the root's children in
document order. -/
def fill_project (proj : Project) : List Element → Except ParseError Project
  | [] => .ok proj
  | e :: rest =>
    if e.name == "PropertyGroup" then
      fill_project (handle_property_group proj e) rest
    else if e.name == "ItemGroup" then
      match handle_item_group proj e with
      | .error err => .error err
      | .ok proj2 => fill_project proj2 rest
    else fill_project proj rest

/-- src/parser.rs `parse`: reject directories, classify by extension, derive
the name, read the XML, then fill the project from the tree. -/
def parse (path : OsPath) (content : XmlReadResult) : Except ParseError Project :=
  if path.isDir then .error .PathIsNotAFile
  else
    match path.extension.bind ProjectLanguage.from_extension with
    | none => .error .FileIsNotAProject
    | some language =>
      match Project.get_project_name path with
      | none => .error .FileDoesNotHaveAName
      | some name =>
        match content with
        | .failed => .error .IoError
        | .document root =>
          fill_project
            { name := name
              language := language
              path := path
              target_framework := none
              project_references := []
              package_references := [] }
            root.children

/-- src/lib.rs `VALID_EXTENSIONS`, as extension byte sequences. -/
def VALID_EXTENSIONS : List (List Nat) :=
  [asciiBytes "csproj", asciiBytes "fsproj", asciiBytes "vbproj"]

/-- src/search.rs `BLOCKED_DIRS`, as component byte sequences. -/
def BLOCKED_DIRS : List (List Nat) :=
  [asciiBytes "bin", asciiBytes ".git", asciiBytes "obj"]

/-- A directory entry as observed by `search_projects`: its file type
(`entry.file_type()`), its name (final component of `entry.path()`), and,
for directories, the entries of the subdirectory.  All directory reads are
assumed to succeed, matching the claims' hypotheses. -/
inductive FsEntry where
  | file (name : List Nat)
  | dir (name : List Nat) (entries : List FsEntry)

/-- Does the entry path's final component equal one of the blocked names
(`BLOCKED_DIRS.iter().any(|dir| entry_path.ends_with(dir))`)? -/
def is_blocked_name (name : List Nat) : Bool :=
  BLOCKED_DIRS.any (fun d => d == name)

/-- Does the entry path's extension belong to the recognized set
(`VALID_EXTENSIONS.iter().any(|ext| *ext == entry_extension)`)? -/
def has_valid_extension (name : List Nat) : Bool :=
  match extensionOf 46 name with
  | some e => VALID_EXTENSIONS.any (fun x => x == e)
  | none => false

/-- src/search.rs `search_projects`, recursing with the path prefix made
explicit: paths are component lists relative to the search root.  A
directory that is not blocked is recursed into (and never pushed); any
other entry is pushed when its extension is recognized. -/
def search_projects_from (pfx : List (List Nat)) : List FsEntry → List (List (List Nat))
  | [] => []
  | .dir name entries :: rest =>
    if !is_blocked_name name then
      search_projects_from (pfx ++ [name]) entries ++ search_projects_from pfx rest
    else
      (if has_valid_extension name then [pfx ++ [name]] else []) ++
        search_projects_from pfx rest
  | .file name :: rest =>
    (if has_valid_extension name then [pfx ++ [name]] else []) ++
      search_projects_from pfx rest

/-- src/search.rs `search_projects` on the root directory's entries. -/
def search_projects (entries : List FsEntry) : List (List (List Nat)) :=
  search_projects_from [] entries

/-- Specification-side enumeration of every file path in the tree, in
document order, with the given prefix. -/
def all_file_paths (pfx : List (List Nat)) : List FsEntry → List (List (List Nat))
  | [] => []
  | .file name :: rest => (pfx ++ [name]) :: all_file_paths pfx rest
  | .dir name entries :: rest =>
    all_file_paths (pfx ++ [name]) entries ++ all_file_paths pfx rest

/-- Specification-side filter for C9: a file path is included exactly when
its file name has a recognized extension and none of its ancestor
directories (the components before the file name) is blocked. -/
def spec_included (path : List (List Nat)) : Bool :=
  match path.getLast? with
  | none => false
  | some nm => has_valid_extension nm && path.dropLast.all (fun c => !is_blocked_name c)

/-- Specification-side document-order sequence of the `ProjectReference`
elements found under `ItemGroup` children of the root. -/
def project_ref_items : List Element → List Element
  | [] => []
  | e :: rest =>
    (if e.name == "ItemGroup" then
      e.children.filter (fun i => i.name == "ProjectReference")
    else []) ++ project_ref_items rest

/-- Specification-side document-order sequence of the `PackageReference`
elements found under `ItemGroup` children of the root. -/
def package_ref_items : List Element → List Element
  | [] => []
  | e :: rest =>
    (if e.name == "ItemGroup" then
      e.children.filter (fun i => i.name == "PackageReference")
    else []) ++ package_ref_items rest

/-- The `ProjectReference` record produced from a `ProjectReference`
element (the defaults are never used on elements a successful parse
accepts). -/
def ref_of_item (item : Element) : ProjectReference :=
  match att_opt item "Include" with
  | some inc =>
    let path := replace_backslashes inc
    { name := (get_project_name_str path).getD "", path := path }
  | none => { name := "", path := "" }

/-- The `PackageReference` record produced from a `PackageReference`
element (the defaults are never used on elements a successful parse
accepts). -/
def pkg_of_item (item : Element) : PackageReference :=
  { name := (att_opt item "Include").getD ""
    version := (att_opt item "Version").getD "" }

/-- Specification-side target framework of a document: the
`TargetFramework` text of the first `PropertyGroup` root child that has
one. -/
def doc_target_framework (es : List Element) : Option String :=
  (es.filter (fun e => e.name == "PropertyGroup")).findSome?
    (fun e => opt_text e "TargetFramework")

/-- Every `ProjectReference` item whose `Include` attribute is present has
an extractable project name after backslash normalization. -/
def item_stem_ok (item : Element) : Bool :=
  if item.name == "ProjectReference" then
    match att_opt item "Include" with
    | some inc => (get_project_name_str (replace_backslashes inc)).isSome
    | none => true
  else true

/-- The item is a reference element missing a required attribute:
a `ProjectReference` without `Include`, or a `PackageReference` without
`Include` or without `Version`. -/
def item_missing_attr (item : Element) : Bool :=
  if item.name == "ProjectReference" then (att_opt item "Include").isNone
  else if item.name == "PackageReference" then
    (att_opt item "Include").isNone || (att_opt item "Version").isNone
  else false

/-- The item is processed without error by `handle_item_group`. -/
def item_ok (item : Element) : Bool :=
  item_stem_ok item && !item_missing_attr item

/-- Every reference item under every `ItemGroup` root child is processed
without error: the document is well formed for the parser. -/
def doc_ok (root : Element) : Bool :=
  root.children.all
    (fun e => if e.name == "ItemGroup" then e.children.all item_ok else true)

/-- Some reference item under some `ItemGroup` root child is missing a
required attribute. -/
def doc_has_missing_attr (es : List Element) : Bool :=
  es.any (fun e => e.name == "ItemGroup" && e.children.any item_missing_attr)

/-- Every `ProjectReference` item under every `ItemGroup` root child whose
`Include` attribute is present has an extractable project name. -/
def doc_stems_ok (es : List Element) : Bool :=
  es.all (fun e => if e.name == "ItemGroup" then e.children.all item_stem_ok else true)

theorem option_orElse_assoc {α : Type} (a b c : Option α) :
    ((a <|> b) <|> c) = (a <|> (b <|> c)) := by
  cases a <;> rfl

theorem handle_items_ok (items : List Element) :
    ∀ proj proj2 : Project, handle_items proj items = .ok proj2 →
      proj2.name = proj.name ∧ proj2.language = proj.language ∧
      proj2.path = proj.path ∧
      proj2.target_framework = proj.target_framework ∧
      proj2.project_references =
        proj.project_references ++
          (items.filter (fun i => i.name == "ProjectReference")).map ref_of_item ∧
      proj2.package_references =
        proj.package_references ++
          (items.filter (fun i => i.name == "PackageReference")).map pkg_of_item := by
  induction items with
  | nil =>
    intro proj proj2 h
    simp only [handle_items] at h
    cases h
    simp
  | cons item rest ih =>
    intro proj proj2 h
    by_cases h1 : item.name = "ProjectReference"
    · simp only [handle_items, h1, beq_self_eq_true, if_true] at h
      cases hinc : att_opt item "Include" with
      | none => rw [hinc] at h; cases h
      | some inc =>
        rw [hinc] at h
        simp only at h
        cases hstem : get_project_name_str (replace_backslashes inc) with
        | none => rw [hstem] at h; cases h
        | some nm =>
          rw [hstem] at h
          obtain ⟨e1, e2, e3, e4, e5, e6⟩ := ih _ _ h
          refine ⟨e1, e2, e3, e4, ?_, ?_⟩
          · rw [e5]
            simp [h1, ref_of_item, hinc, hstem]
          · rw [e6]
            simp [h1]
    · by_cases h2 : item.name = "PackageReference"
      · simp only [handle_items, h1, h2, beq_self_eq_true, if_true] at h
        rw [if_neg (by simp [h2, h1])] at h
        cases hinc : att_opt item "Include" with
        | none => rw [hinc] at h; cases h
        | some nm =>
          rw [hinc] at h
          cases hver : att_opt item "Version" with
          | none => rw [hver] at h; cases h
          | some ver =>
            rw [hver] at h
            obtain ⟨e1, e2, e3, e4, e5, e6⟩ := ih _ _ h
            refine ⟨e1, e2, e3, e4, ?_, ?_⟩
            · rw [e5]
              simp [h1, h2]
            · rw [e6]
              simp [h1, h2, pkg_of_item, hinc, hver]
      · simp only [handle_items] at h
        rw [if_neg (by simp [h1]), if_neg (by simp [h2])] at h
        obtain ⟨e1, e2, e3, e4, e5, e6⟩ := ih _ _ h
        refine ⟨e1, e2, e3, e4, ?_, ?_⟩
        · rw [e5]; simp [h1]
        · rw [e6]; simp [h2]

theorem handle_property_group_fields (proj : Project) (e : Element) :
    (handle_property_group proj e).name = proj.name ∧
    (handle_property_group proj e).language = proj.language ∧
    (handle_property_group proj e).path = proj.path ∧
    (handle_property_group proj e).project_references = proj.project_references ∧
    (handle_property_group proj e).package_references = proj.package_references ∧
    (handle_property_group proj e).target_framework =
      (proj.target_framework <|> opt_text e "TargetFramework") := by
  by_cases ht : proj.target_framework.isSome
  · obtain ⟨v, hv⟩ := Option.isSome_iff_exists.mp ht
    simp [handle_property_group, ht, hv]
  · rw [Option.not_isSome_iff_eq_none] at ht
    simp [handle_property_group, ht]

theorem fill_project_ok (es : List Element) :
    ∀ proj proj2 : Project, fill_project proj es = .ok proj2 →
      proj2.name = proj.name ∧ proj2.language = proj.language ∧
      proj2.path = proj.path ∧
      proj2.target_framework = (proj.target_framework <|> doc_target_framework es) ∧
      proj2.project_references =
        proj.project_references ++ (project_ref_items es).map ref_of_item ∧
      proj2.package_references =
        proj.package_references ++ (package_ref_items es).map pkg_of_item := by
  induction es with
  | nil =>
    intro proj proj2 h
    simp only [fill_project] at h
    cases h
    simp [doc_target_framework, project_ref_items, package_ref_items]
  | cons e rest ih =>
    intro proj proj2 h
    by_cases h1 : e.name = "PropertyGroup"
    · simp only [fill_project, h1, beq_self_eq_true, if_true] at h
      obtain ⟨e1, e2, e3, e4, e5, e6⟩ := ih _ _ h
      obtain ⟨p1, p2, p3, p4, p5, p6⟩ := handle_property_group_fields proj e
      refine ⟨e1.trans p1, e2.trans p2, e3.trans p3, ?_, ?_, ?_⟩
      · rw [e4, p6, option_orElse_assoc]
        have : doc_target_framework (e :: rest) =
            (opt_text e "TargetFramework" <|> doc_target_framework rest) := by
          simp only [doc_target_framework, List.filter_cons, h1, beq_self_eq_true,
            if_true, List.findSome?_cons]
          cases opt_text e "TargetFramework" <;> rfl
        rw [this]
      · rw [e5, p4]
        simp [project_ref_items, h1]
      · rw [e6, p5]
        simp [package_ref_items, h1]
    · by_cases h2 : e.name = "ItemGroup"
      · simp only [fill_project, h2, beq_self_eq_true, if_true] at h
        rw [if_neg (by simp [h1])] at h
        cases hh : handle_item_group proj e with
        | error err => rw [hh] at h; cases h
        | ok projMid =>
          rw [hh] at h
          obtain ⟨m1, m2, m3, m4, m5, m6⟩ := handle_items_ok e.children proj projMid hh
          obtain ⟨e1, e2, e3, e4, e5, e6⟩ := ih _ _ h
          refine ⟨e1.trans m1, e2.trans m2, e3.trans m3, ?_, ?_, ?_⟩
          · rw [e4, m4]
            have : doc_target_framework (e :: rest) = doc_target_framework rest := by
              simp [doc_target_framework, List.filter_cons, h1]
            rw [this]
          · rw [e5, m5]
            simp [project_ref_items, h2]
          · rw [e6, m6]
            simp [package_ref_items, h2]
      · simp only [fill_project] at h
        rw [if_neg (by simp [h1]), if_neg (by simp [h2])] at h
        obtain ⟨e1, e2, e3, e4, e5, e6⟩ := ih _ _ h
        refine ⟨e1, e2, e3, ?_, ?_, ?_⟩
        · rw [e4]
          have : doc_target_framework (e :: rest) = doc_target_framework rest := by
            simp [doc_target_framework, List.filter_cons, h1]
          rw [this]
        · rw [e5]; simp [project_ref_items, h2]
        · rw [e6]; simp [package_ref_items, h2]

theorem handle_items_exists (items : List Element) :
    ∀ proj : Project, (∀ i ∈ items, item_ok i = true) →
      ∃ proj2, handle_items proj items = .ok proj2 := by
  induction items with
  | nil => intro proj _; exact ⟨proj, rfl⟩
  | cons item rest ih =>
    intro proj hall
    have hitem : item_ok item = true := hall item (List.mem_cons_self _ _)
    have hrest : ∀ i ∈ rest, item_ok i = true :=
      fun i hi => hall i (List.mem_cons_of_mem _ hi)
    simp only [item_ok, item_stem_ok, item_missing_attr, Bool.and_eq_true,
      Bool.not_eq_true'] at hitem
    by_cases h1 : item.name = "ProjectReference"
    · rw [if_pos (by simp [h1]), if_pos (by simp [h1])] at hitem
      obtain ⟨hstem, hmiss⟩ := hitem
      cases hinc : att_opt item "Include" with
      | none => rw [hinc] at hmiss; simp at hmiss
      | some inc =>
        rw [hinc] at hstem
        cases hnm : get_project_name_str (replace_backslashes inc) with
        | none => simp [hnm] at hstem
        | some nm =>
          obtain ⟨proj2, hp2⟩ := ih _ hrest
          refine ⟨proj2, ?_⟩
          simp only [handle_items, h1, beq_self_eq_true, if_true, hinc, hnm]
          exact hp2
    · by_cases h2 : item.name = "PackageReference"
      · rw [if_neg (by simp [h1])] at hitem
        rw [if_neg (by simp [h1]), if_pos (by simp [h2])] at hitem
        obtain ⟨hstem, hmiss⟩ := hitem
        simp only [Bool.or_eq_false_iff, Option.isNone_eq_false_iff] at hmiss
        obtain ⟨hinc0, hver0⟩ := hmiss
        obtain ⟨nm, hinc⟩ := Option.isSome_iff_exists.mp hinc0
        obtain ⟨ver, hver⟩ := Option.isSome_iff_exists.mp hver0
        obtain ⟨proj2, hp2⟩ := ih _ hrest
        refine ⟨proj2, ?_⟩
        simp only [handle_items, h2, beq_self_eq_true, if_true, hinc, hver]
        rw [if_neg (by simp [h1])]
        exact hp2
      · obtain ⟨proj2, hp2⟩ := ih _ hrest
        refine ⟨proj2, ?_⟩
        simp only [handle_items]
        rw [if_neg (by simp [h1]), if_neg (by simp [h2])]
        exact hp2

theorem fill_project_exists (es : List Element) :
    ∀ proj : Project,
      (∀ e ∈ es, e.name = "ItemGroup" → ∀ i ∈ e.children, item_ok i = true) →
      ∃ proj2, fill_project proj es = .ok proj2 := by
  induction es with
  | nil => intro proj _; exact ⟨proj, rfl⟩
  | cons e rest ih =>
    intro proj hall
    have hrest : ∀ x ∈ rest, x.name = "ItemGroup" → ∀ i ∈ x.children, item_ok i = true :=
      fun x hx => hall x (List.mem_cons_of_mem _ hx)
    by_cases h1 : e.name = "PropertyGroup"
    · obtain ⟨proj2, hp2⟩ := ih (handle_property_group proj e) hrest
      refine ⟨proj2, ?_⟩
      simp only [fill_project, h1, beq_self_eq_true, if_true]
      exact hp2
    · by_cases h2 : e.name = "ItemGroup"
      · obtain ⟨projMid, hmid⟩ :=
          handle_items_exists e.children proj (hall e (List.mem_cons_self _ _) h2)
        obtain ⟨proj2, hp2⟩ := ih projMid hrest
        refine ⟨proj2, ?_⟩
        simp only [fill_project, h2, beq_self_eq_true, if_true]
        rw [if_neg (by simp [h1])]
        rw [show handle_item_group proj e = .ok projMid from hmid]
        exact hp2
      · obtain ⟨proj2, hp2⟩ := ih proj hrest
        refine ⟨proj2, ?_⟩
        simp only [fill_project]
        rw [if_neg (by simp [h1]), if_neg (by simp [h2])]
        exact hp2

theorem handle_items_missing (items : List Element) :
    ∀ proj : Project, (∀ i ∈ items, item_stem_ok i = true) →
      items.any item_missing_attr = true →
      handle_items proj items = .error .DeserializationError := by
  induction items with
  | nil => intro proj _ hany; simp at hany
  | cons item rest ih =>
    intro proj hall hany
    have hstem : item_stem_ok item = true := hall item (List.mem_cons_self _ _)
    have hrest : ∀ i ∈ rest, item_stem_ok i = true :=
      fun i hi => hall i (List.mem_cons_of_mem _ hi)
    by_cases h1 : item.name = "ProjectReference"
    · cases hinc : att_opt item "Include" with
      | none =>
        simp only [handle_items, h1, beq_self_eq_true, if_true, hinc]
      | some inc =>
        have hmiss : item_missing_attr item = false := by
          simp [item_missing_attr, h1, hinc]
        rw [List.any_cons, hmiss, Bool.false_or] at hany
        rw [item_stem_ok, if_pos (by simp [h1]), hinc] at hstem
        cases hnm : get_project_name_str (replace_backslashes inc) with
        | none => simp [hnm] at hstem
        | some nm =>
          simp only [handle_items, h1, beq_self_eq_true, if_true, hinc, hnm]
          exact ih _ hrest hany
    · by_cases h2 : item.name = "PackageReference"
      · cases hinc : att_opt item "Include" with
        | none =>
          simp only [handle_items, h2, beq_self_eq_true, if_true, hinc]
          rw [if_neg (by simp [h1])]
        | some nm =>
          cases hver : att_opt item "Version" with
          | some ver =>
            have hmiss : item_missing_attr item = false := by
              simp [item_missing_attr, h1, h2, hinc, hver]
            rw [List.any_cons, hmiss, Bool.false_or] at hany
            simp only [handle_items, h2, beq_self_eq_true, if_true, hinc, hver]
            rw [if_neg (by simp [h1])]
            exact ih _ hrest hany
          | none =>
            simp only [handle_items, h2, beq_self_eq_true, if_true, hinc, hver]
            rw [if_neg (by simp [h1])]
      · have hmiss : item_missing_attr item = false := by
          simp [item_missing_attr, h1, h2]
        rw [List.any_cons, hmiss, Bool.false_or] at hany
        simp only [handle_items]
        rw [if_neg (by simp [h1]), if_neg (by simp [h2])]
        exact ih _ hrest hany

theorem fill_project_missing (es : List Element) :
    ∀ proj : Project, doc_stems_ok es = true → doc_has_missing_attr es = true →
      fill_project proj es = .error .DeserializationError := by
  induction es with
  | nil => intro proj _ hany; simp [doc_has_missing_attr] at hany
  | cons e rest ih =>
    intro proj hstems hany
    rw [doc_stems_ok, List.all_cons, Bool.and_eq_true] at hstems
    obtain ⟨hstem0, hstemrest⟩ := hstems
    rw [doc_has_missing_attr, List.any_cons, Bool.or_eq_true] at hany
    by_cases h2 : e.name = "ItemGroup"
    · have h1 : ¬ e.name = "PropertyGroup" := by simp [h2]
      rw [if_pos (by simp [h2])] at hstem0
      by_cases hloc : e.children.any item_missing_attr = true
      · have hstemall : ∀ i ∈ e.children, item_stem_ok i = true := by
          rw [List.all_eq_true] at hstem0; exact hstem0
        have herr := handle_items_missing e.children proj hstemall hloc
        simp only [fill_project, h2, beq_self_eq_true, if_true]
        rw [if_neg (by simp [h1])]
        rw [show handle_item_group proj e = .error .DeserializationError from herr]
      · have hrestany : doc_has_missing_attr rest = true := by
          rcases hany with hc | hr
          · rw [Bool.and_eq_true] at hc
            exact absurd hc.2 hloc
          · exact hr
        have hstemall : ∀ i ∈ e.children, item_stem_ok i = true := by
          rw [List.all_eq_true] at hstem0; exact hstem0
        have hnomiss : ∀ i ∈ e.children, item_ok i = true := by
          intro i hi
          have hm : item_missing_attr i = false := by
            by_contra hcon
            rw [Bool.not_eq_false] at hcon
            exact hloc (List.any_eq_true.mpr ⟨i, hi, hcon⟩)
          simp [item_ok, hstemall i hi, hm]
        obtain ⟨projMid, hmid⟩ := handle_items_exists e.children proj hnomiss
        simp only [fill_project, h2, beq_self_eq_true, if_true]
        rw [if_neg (by simp [h1])]
        rw [show handle_item_group proj e = .ok projMid from hmid]
        exact ih projMid hstemrest hrestany
    · have hrestany : doc_has_missing_attr rest = true := by
        rcases hany with hc | hr
        · rw [Bool.and_eq_true] at hc
          exact absurd hc.1 (by simp [h2])
        · exact hr
      by_cases h1 : e.name = "PropertyGroup"
      · simp only [fill_project, h1, beq_self_eq_true, if_true]
        exact ih _ hstemrest hrestany
      · simp only [fill_project]
        rw [if_neg (by simp [h1]), if_neg (by simp [h2])]
        exact ih _ hstemrest hrestany

theorem parse_ok_fill (p : OsPath) (root : Element) (proj : Project)
    (h : parse p (.document root) = .ok proj) :
    ∃ lang nm,
      fill_project
        { name := nm, language := lang, path := p, target_framework := none,
          project_references := [], package_references := [] } root.children = .ok proj := by
  by_cases hdir : p.isDir
  · simp [parse, hdir] at h
  · cases hle : p.extension.bind ProjectLanguage.from_extension with
    | none => simp [parse, hdir, hle] at h
    | some lang =>
      cases hnm : Project.get_project_name p with
      | none => simp [parse, hdir, hle, hnm] at h
      | some nm =>
        refine ⟨lang, nm, ?_⟩
        simpa [parse, hdir, hle, hnm] using h

/-- Claim C1: for every non-directory path whose extension is csproj, fsproj
or vbproj, whose stem is extractable and whose content is a well-formed
project document, `parse` succeeds and the returned project's `language`
equals the image of the extension under the closed mapping csproj to CSharp,
fsproj to FSharp, vbproj to VB. -/
theorem parse_language_matches_extension
    (p : OsPath) (hdir : p.isDir = false)
    (ext : List Nat) (hext : p.extension = some ext)
    (lang : ProjectLanguage) (hlang : ProjectLanguage.from_extension ext = some lang)
    (nm : List Nat) (hnm : Project.get_project_name p = some nm)
    (root : Element) (hdoc : doc_ok root = true) :
    ∃ proj : Project, parse p (.document root) = .ok proj ∧ proj.language = lang := by
  have hch : ∀ e ∈ root.children, e.name = "ItemGroup" → ∀ i ∈ e.children, item_ok i = true := by
    rw [doc_ok, List.all_eq_true] at hdoc
    intro e he hig i hi
    have hone := hdoc e he
    rw [if_pos (by simp [hig])] at hone
    exact List.all_eq_true.mp hone i hi
  obtain ⟨proj, hfill⟩ := fill_project_exists root.children _ hch
  refine ⟨proj, ?_, ?_⟩
  · simp only [parse, hdir, Bool.false_eq_true, if_false, hext, Option.some_bind, hlang, hnm]
    exact hfill
  · obtain ⟨-, e2, -, -, -, -⟩ := fill_project_ok root.children _ proj hfill
    simpa using e2

/-- Claim C1 witness: a concrete csproj path with an empty project document
parses successfully with language CSharp. -/
theorem parse_language_matches_extension_witness :
    ∃ proj : Project,
      parse ⟨false, some (asciiBytes "A.csproj")⟩
        (.document (.mk "Project" [] none [])) = .ok proj ∧
      proj.language = ProjectLanguage.CSharp :=
  parse_language_matches_extension ⟨false, some (asciiBytes "A.csproj")⟩ rfl
    (asciiBytes "csproj") (by decide) ProjectLanguage.CSharp (by decide)
    (asciiBytes "A") (by decide) (.mk "Project" [] none []) (by decide)

/-- Claim C2: on every successful parse, the project-reference and
package-reference lists equal, in order, the document-order sequences of the
`ProjectReference` / `PackageReference` elements under `ItemGroup` children
of the root; no reordering and no deduplication occur. -/
theorem parse_preserves_reference_order
    (p : OsPath) (root : Element) (proj : Project)
    (h : parse p (.document root) = .ok proj) :
    proj.project_references = (project_ref_items root.children).map ref_of_item ∧
    proj.package_references = (package_ref_items root.children).map pkg_of_item := by
  obtain ⟨lang, nm, hfill⟩ := parse_ok_fill p root proj h
  obtain ⟨-, -, -, -, e5, e6⟩ := fill_project_ok root.children _ proj hfill
  exact ⟨by simpa using e5, by simpa using e6⟩

/-- Claim C2 witness: a document with a duplicated package reference yields a
duplicated list entry, in document order. -/
theorem parse_preserves_reference_order_witness :
    ([{ name := "X", version := "1.0" }, { name := "X", version := "1.0" }] :
        List PackageReference) =
      (package_ref_items
        [Element.mk "ItemGroup" [] none
          [.mk "PackageReference" [("Include", "X"), ("Version", "1.0")] none [],
           .mk "PackageReference" [("Include", "X"), ("Version", "1.0")] none [],
           .mk "ProjectReference" [("Include", "..\\A\\A.csproj")] none []]]).map
        pkg_of_item ∧
    ([{ name := "A", path := "../A/A.csproj" }] : List ProjectReference) =
      (project_ref_items
        [Element.mk "ItemGroup" [] none
          [.mk "PackageReference" [("Include", "X"), ("Version", "1.0")] none [],
           .mk "PackageReference" [("Include", "X"), ("Version", "1.0")] none [],
           .mk "ProjectReference" [("Include", "..\\A\\A.csproj")] none []]]).map
        ref_of_item := by
  have h := parse_preserves_reference_order ⟨false, some (asciiBytes "A.csproj")⟩
    (.mk "Project" [] none
      [.mk "ItemGroup" [] none
        [.mk "PackageReference" [("Include", "X"), ("Version", "1.0")] none [],
         .mk "PackageReference" [("Include", "X"), ("Version", "1.0")] none [],
         .mk "ProjectReference" [("Include", "..\\A\\A.csproj")] none []]])
    { name := asciiBytes "A", language := .CSharp
      path := ⟨false, some (asciiBytes "A.csproj")⟩
      target_framework := none
      project_references := [{ name := "A", path := "../A/A.csproj" }]
      package_references :=
        [{ name := "X", version := "1.0" }, { name := "X", version := "1.0" }] }
    rfl
  exact ⟨h.2, h.1⟩

/-- Claim C3: when two or more `PropertyGroup` root children each define a
`TargetFramework` child element, the parsed target framework is the value
from the first such `PropertyGroup` in document order (first-writer-wins). -/
theorem parse_target_framework_first_writer_wins
    (p : OsPath) (root : Element) (proj : Project)
    (h : parse p (.document root) = .ok proj)
    (pg1 : Element) (pgs : List Element)
    (hpgs : root.children.filter (fun e => e.name == "PropertyGroup") = pg1 :: pgs)
    (v : String) (hv : opt_text pg1 "TargetFramework" = some v)
    (_hmore : pgs ≠ [])
    (_hall : ∀ pg ∈ pgs, (opt_text pg "TargetFramework").isSome = true) :
    proj.target_framework = some v := by
  obtain ⟨lang, nm, hfill⟩ := parse_ok_fill p root proj h
  obtain ⟨-, -, -, e4, -, -⟩ := fill_project_ok root.children _ proj hfill
  rw [e4]
  rw [show (none <|> doc_target_framework root.children) =
      doc_target_framework root.children from rfl]
  rw [doc_target_framework, hpgs, List.findSome?_cons, hv]

/-- Claim C3 witness: with two `PropertyGroup` elements defining net8.0 and
net6.0 in that order, the parsed target framework is net8.0. -/
theorem parse_target_framework_first_writer_wins_witness :
    ({ name := asciiBytes "A", language := .CSharp
       path := ⟨false, some (asciiBytes "A.csproj")⟩
       target_framework := some "net8.0"
       project_references := []
       package_references := [] } : Project).target_framework = some "net8.0" :=
  parse_target_framework_first_writer_wins ⟨false, some (asciiBytes "A.csproj")⟩
    (.mk "Project" [] none
      [.mk "PropertyGroup" [] none [.mk "TargetFramework" [] (some "net8.0") []],
       .mk "PropertyGroup" [] none [.mk "TargetFramework" [] (some "net6.0") []]])
    _ rfl
    (.mk "PropertyGroup" [] none [.mk "TargetFramework" [] (some "net8.0") []])
    [.mk "PropertyGroup" [] none [.mk "TargetFramework" [] (some "net6.0") []]]
    rfl "net8.0" rfl (List.cons_ne_nil _ _)
    (by
      intro pg hpg
      rw [List.mem_singleton] at hpg
      subst hpg
      rfl)

/-- Claim C4: a `ProjectReference` element with an `Include` attribute is
stored with every backslash replaced by a forward slash and with its name
equal to the file stem of the normalized path; when the normalized path has
no extractable stem, processing fails with `FileDoesNotHaveAName`. -/
theorem handle_item_group_project_reference
    (proj : Project) (item : Element) (rest : List Element)
    (hname : item.name = "ProjectReference")
    (inc : String) (hinc : att_opt item "Include" = some inc) :
    (∀ nm, get_project_name_str (replace_backslashes inc) = some nm →
      handle_items proj (item :: rest) =
        handle_items
          { proj with
              project_references :=
                proj.project_references ++
                  [{ name := nm, path := replace_backslashes inc }] } rest) ∧
    (get_project_name_str (replace_backslashes inc) = none →
      handle_items proj (item :: rest) = .error .FileDoesNotHaveAName) := by
  constructor
  · intro nm hnm
    simp only [handle_items, hname, beq_self_eq_true, if_true, hinc, hnm]
  · intro hnm
    simp only [handle_items, hname, beq_self_eq_true, if_true, hinc, hnm]

/-- Claim C4 witness: the `Include` value `..\A\A.csproj` is stored as
`../A/A.csproj` with name `A`, and the stemless `Include` value `..` fails
with `FileDoesNotHaveAName`. -/
theorem handle_item_group_project_reference_witness :
    handle_items
        { name := asciiBytes "A", language := .CSharp
          path := ⟨false, some (asciiBytes "A.csproj")⟩
          target_framework := none, project_references := []
          package_references := [] }
        [.mk "ProjectReference" [("Include", "..\\A\\A.csproj")] none []] =
      .ok
        { name := asciiBytes "A", language := .CSharp
          path := ⟨false, some (asciiBytes "A.csproj")⟩
          target_framework := none
          project_references := [{ name := "A", path := "../A/A.csproj" }]
          package_references := [] } ∧
    handle_items
        { name := asciiBytes "A", language := .CSharp
          path := ⟨false, some (asciiBytes "A.csproj")⟩
          target_framework := none, project_references := []
          package_references := [] }
        [.mk "ProjectReference" [("Include", "..")] none []] =
      .error .FileDoesNotHaveAName :=
  ⟨((handle_item_group_project_reference _
      (.mk "ProjectReference" [("Include", "..\\A\\A.csproj")] none []) [] rfl
      "..\\A\\A.csproj" (by decide)).1 "A" (by decide)).trans rfl,
   (handle_item_group_project_reference _
      (.mk "ProjectReference" [("Include", "..")] none []) [] rfl
      ".." (by decide)).2 (by decide)⟩

/-- Claim C5 counterexample: a well-formed document that does contain a
`PackageReference` missing its `Version` attribute, on which `parse`
nevertheless fails with `FileDoesNotHaveAName` rather than
`DeserializationError`, because an earlier `ProjectReference` has the
stemless `Include` value `..`. -/
theorem parse_missing_attr_counterexample :
    doc_has_missing_attr
        (Element.mk "Project" [] none
          [.mk "ItemGroup" [] none
            [.mk "ProjectReference" [("Include", "..")] none [],
             .mk "PackageReference" [("Include", "X")] none []]]).children = true ∧
    parse ⟨false, some (asciiBytes "B.csproj")⟩
        (.document
          (.mk "Project" [] none
            [.mk "ItemGroup" [] none
              [.mk "ProjectReference" [("Include", "..")] none [],
               .mk "PackageReference" [("Include", "X")] none []]])) =
      .error .FileDoesNotHaveAName ∧
    parse ⟨false, some (asciiBytes "B.csproj")⟩
        (.document
          (.mk "Project" [] none
            [.mk "ItemGroup" [] none
              [.mk "ProjectReference" [("Include", "..")] none [],
               .mk "PackageReference" [("Include", "X")] none []]])) ≠
      .error .DeserializationError :=
  ⟨by decide, rfl, by decide⟩

/-- Claim C5 (amended): for every structurally well-formed document that
contains a `PackageReference` element missing `Include` or `Version`, or a
`ProjectReference` element missing `Include`, and in which every
`ProjectReference` whose `Include` is present has an extractable stem after
normalization, `parse` fails with `DeserializationError`. -/
theorem parse_missing_attr_amended
    (p : OsPath) (hdir : p.isDir = false)
    (lang : ProjectLanguage)
    (hlang : p.extension.bind ProjectLanguage.from_extension = some lang)
    (nm : List Nat) (hnm : Project.get_project_name p = some nm)
    (root : Element)
    (hstems : doc_stems_ok root.children = true)
    (hmiss : doc_has_missing_attr root.children = true) :
    parse p (.document root) = .error .DeserializationError := by
  simp only [parse, hdir, Bool.false_eq_true, if_false, hlang, hnm]
  exact fill_project_missing root.children _ hstems hmiss

/-- Claim C5 amended witness: a document whose only reference element is a
`PackageReference` with `Include` but no `Version` parses to
`DeserializationError`. -/
theorem parse_missing_attr_amended_witness :
    parse ⟨false, some (asciiBytes "B.csproj")⟩
        (.document
          (.mk "Project" [] none
            [.mk "ItemGroup" [] none
              [.mk "PackageReference" [("Include", "X")] none []]])) =
      .error .DeserializationError :=
  parse_missing_attr_amended ⟨false, some (asciiBytes "B.csproj")⟩ rfl
    ProjectLanguage.CSharp (by decide) (asciiBytes "B") (by decide)
    (.mk "Project" [] none
      [.mk "ItemGroup" [] none
        [.mk "PackageReference" [("Include", "X")] none []]])
    (by decide) (by decide)

/-- Claim C6: when the content fails to tokenize or parse into an element
tree, `parse` propagates the failure as the I/O-class `IoError` variant,
which is distinct from the semantic `DeserializationError` variant. -/
theorem parse_malformed_xml_io_error
    (p : OsPath) (hdir : p.isDir = false)
    (lang : ProjectLanguage)
    (hlang : p.extension.bind ProjectLanguage.from_extension = some lang)
    (nm : List Nat) (hnm : Project.get_project_name p = some nm) :
    parse p .failed = .error .IoError ∧
    ParseError.IoError ≠ ParseError.DeserializationError := by
  constructor
  · simp only [parse, hdir, Bool.false_eq_true, if_false, hlang, hnm]
  · decide

/-- Claim C6 witness: a malformed stream under a valid vbproj path yields
`IoError`. -/
theorem parse_malformed_xml_io_error_witness :
    parse ⟨false, some (asciiBytes "TestProject.vbproj")⟩ .failed = .error .IoError ∧
    ParseError.IoError ≠ ParseError.DeserializationError :=
  parse_malformed_xml_io_error ⟨false, some (asciiBytes "TestProject.vbproj")⟩ rfl
    ProjectLanguage.VB (by decide) (asciiBytes "TestProject") (by decide)

/-- Claim C7: for every non-directory path whose extension is absent or not
in the recognized set, `parse` fails with `FileIsNotAProject` regardless of
content, and in particular never with `FileDoesNotHaveAName`. -/
theorem parse_unrecognized_extension
    (p : OsPath) (hdir : p.isDir = false)
    (hext : ∀ e, p.extension = some e → ProjectLanguage.from_extension e = none)
    (content : XmlReadResult) :
    parse p content = .error .FileIsNotAProject ∧
    parse p content ≠ .error .FileDoesNotHaveAName := by
  have hnolang : p.extension.bind ProjectLanguage.from_extension = none := by
    cases he : p.extension with
    | none => rfl
    | some e => simpa using hext e he
  constructor
  · simp only [parse, hdir, Bool.false_eq_true, if_false, hnolang]
  · simp only [parse, hdir, Bool.false_eq_true, if_false, hnolang]
    decide

/-- Claim C7 witness: the leading-dot file name `.csproj` (whose extension is
not resolved) and the unrecognized extension `txt` are both rejected with
`FileIsNotAProject`, even on a well-formed document. -/
theorem parse_unrecognized_extension_witness :
    parse ⟨false, some (asciiBytes ".csproj")⟩
        (.document (.mk "Project" [] none [])) = .error .FileIsNotAProject ∧
    parse ⟨false, some (asciiBytes "A.txt")⟩
        (.document (.mk "Project" [] none [])) = .error .FileIsNotAProject :=
  ⟨(parse_unrecognized_extension ⟨false, some (asciiBytes ".csproj")⟩ rfl
      (by intro e he; rw [show OsPath.extension ⟨false, some (asciiBytes ".csproj")⟩ =
        none from by decide] at he; cases he)
      (.document (.mk "Project" [] none []))).1,
   (parse_unrecognized_extension ⟨false, some (asciiBytes "A.txt")⟩ rfl
      (by
        intro e he
        rw [show OsPath.extension ⟨false, some (asciiBytes "A.txt")⟩ =
          some (asciiBytes "txt") from by decide] at he
        cases he
        decide)
      (.document (.mk "Project" [] none []))).1⟩

/-- Claim C8: for every path that denotes a directory, `parse` fails with
`PathIsNotAFile` for every possible content of the supplied reader. -/
theorem parse_directory_path
    (p : OsPath) (hdir : p.isDir = true) (content : XmlReadResult) :
    parse p content = .error .PathIsNotAFile := by
  simp only [parse, hdir, if_true]

/-- Claim C8 witness: a directory path is rejected both on a failing reader
and on a well-formed document. -/
theorem parse_directory_path_witness :
    parse ⟨true, none⟩ .failed = .error .PathIsNotAFile ∧
    parse ⟨true, some (asciiBytes "A.csproj")⟩
        (.document (.mk "Project" [] none [])) = .error .PathIsNotAFile :=
  ⟨parse_directory_path ⟨true, none⟩ rfl .failed,
   parse_directory_path ⟨true, some (asciiBytes "A.csproj")⟩ rfl
     (.document (.mk "Project" [] none []))⟩

/-- Claim C10: a non-directory path with a recognized extension whose file
stem is a non-empty byte sequence that is not valid UTF-8 makes `parse` fail
with `FileDoesNotHaveAName`, regardless of content: name extraction requires
the stem to decode as UTF-8. -/
theorem parse_invalid_utf8_stem
    (p : OsPath) (hdir : p.isDir = false)
    (ext : List Nat) (hext : p.extension = some ext)
    (lang : ProjectLanguage) (hlang : ProjectLanguage.from_extension ext = some lang)
    (st : List Nat) (hst : p.fileStem = some st)
    (_hne : st ≠ []) (hutf : utf8Valid st = false)
    (content : XmlReadResult) :
    parse p content = .error .FileDoesNotHaveAName := by
  have hname : Project.get_project_name p = none := by
    simp [Project.get_project_name, hst, hutf]
  simp only [parse, hdir, Bool.false_eq_true, if_false, hext, Option.some_bind,
    hlang, hname]

/-- Claim C10 witness: the file name `0xFF.csproj` (a single invalid UTF-8
byte before the dot) has extension csproj and the non-empty stem `[0xFF]`,
and parsing fails with `FileDoesNotHaveAName`. -/
theorem parse_invalid_utf8_stem_witness :
    parse ⟨false, some (255 :: 46 :: asciiBytes "csproj")⟩
        (.document (.mk "Project" [] none [])) = .error .FileDoesNotHaveAName :=
  parse_invalid_utf8_stem ⟨false, some (255 :: 46 :: asciiBytes "csproj")⟩ rfl
    (asciiBytes "csproj") (by decide) ProjectLanguage.CSharp (by decide)
    [255] (by decide) (by decide) (by decide)
    (.document (.mk "Project" [] none []))

theorem blocked_not_valid_extension (nm : List Nat)
    (hb : is_blocked_name nm = true) : has_valid_extension nm = false := by
  simp only [is_blocked_name, BLOCKED_DIRS, List.any_cons, List.any_nil,
    Bool.or_false, Bool.or_eq_true, beq_iff_eq] at hb
  rcases hb with h | h | h <;> subst h <;> decide

theorem spec_included_false_of_blocked (path : List (List Nat)) (c : List Nat)
    (hc : c ∈ path.dropLast) (hb : is_blocked_name c = true) :
    spec_included path = false := by
  unfold spec_included
  cases hl : path.getLast? with
  | none => rfl
  | some nm =>
    have hall : path.dropLast.all (fun x => !is_blocked_name x) = false := by
      by_contra hcon
      rw [Bool.not_eq_false, List.all_eq_true] at hcon
      have hx := hcon c hc
      rw [hb] at hx
      simp at hx
    simp only [hall, Bool.and_false]

theorem mem_all_file_paths :
    ∀ (ts : List FsEntry) (pfx path : List (List Nat)),
      path ∈ all_file_paths pfx ts → ∀ c ∈ pfx, c ∈ path.dropLast
  | [], pfx, path, h => by simp [all_file_paths] at h
  | .file nm :: rest, pfx, path, h => by
    simp only [all_file_paths, List.mem_cons] at h
    rcases h with h | h
    · intro c hc
      subst h
      rw [List.dropLast_concat]
      exact hc
    · exact mem_all_file_paths rest pfx path h
  | .dir nm sub :: rest, pfx, path, h => by
    simp only [all_file_paths, List.mem_append] at h
    rcases h with h | h
    · intro c hc
      exact mem_all_file_paths sub (pfx ++ [nm]) path h c (List.mem_append_left _ hc)
    · exact mem_all_file_paths rest pfx path h

theorem search_projects_from_spec :
    ∀ (ts : List FsEntry) (pfx : List (List Nat)),
      pfx.all (fun c => !is_blocked_name c) = true →
      search_projects_from pfx ts = (all_file_paths pfx ts).filter spec_included
  | [], pfx, hpfx => by simp [search_projects_from, all_file_paths]
  | .file nm :: rest, pfx, hpfx => by
    have ih := search_projects_from_spec rest pfx hpfx
    have hsi : spec_included (pfx ++ [nm]) = has_valid_extension nm := by
      simp only [spec_included, List.getLast?_concat, List.dropLast_concat, hpfx,
        Bool.and_true]
    simp only [search_projects_from, all_file_paths, ih, List.filter_cons, hsi]
    cases has_valid_extension nm <;> simp
  | .dir nm sub :: rest, pfx, hpfx => by
    have ih1 := search_projects_from_spec rest pfx hpfx
    by_cases hb : is_blocked_name nm = true
    · have hval := blocked_not_valid_extension nm hb
      have hsub : (all_file_paths (pfx ++ [nm]) sub).filter spec_included = [] := by
        rw [List.filter_eq_nil_iff]
        intro path hpath
        have hmem := mem_all_file_paths sub (pfx ++ [nm]) path hpath nm
          (List.mem_append_right _ (List.mem_singleton.mpr rfl))
        rw [spec_included_false_of_blocked path nm hmem hb]
        simp
      simp only [search_projects_from, hb, Bool.not_true, Bool.false_eq_true, if_false,
        hval, all_file_paths, List.filter_append, hsub, List.nil_append, ih1]
    · rw [Bool.not_eq_true] at hb
      have hpfx2 : (pfx ++ [nm]).all (fun c => !is_blocked_name c) = true := by
        rw [List.all_append, hpfx, Bool.true_and, List.all_cons, List.all_nil,
          Bool.and_true, hb, Bool.not_false]
      have ih2 := search_projects_from_spec sub (pfx ++ [nm]) hpfx2
      simp only [search_projects_from, hb, Bool.not_false, if_true, all_file_paths,
        List.filter_append, ih1, ih2]

/-- Claim C9: on every directory tree whose reads all succeed,
`search_projects` returns exactly the paths of the files whose extension is
csproj, fsproj or vbproj and that do not lie under any directory named bin,
.git or obj; in particular, when no file matches it returns the empty
sequence rather than an error. -/
theorem search_projects_spec (entries : List FsEntry) :
    search_projects entries = (all_file_paths [] entries).filter spec_included :=
  search_projects_from_spec entries [] rfl

